import Mathlib

/-!
Shallow embedding of the emu-sync synchronization engine.

Each definition mirrors one Go function of the repository:
* `FileEntry`, `Manifest`, `DiffResult`, `Diff` — internal/manifest (manifest.go)
* `Config.ShouldSync` — internal/config (config.go)
* `WithBackoff` — internal/retry/retry.go
* `downloadOne`, `driftHeal`, `deletePhase`, the sequential/parallel transfer
  aggregation — internal/sync (sync.go)
* `Verify` — internal/sync (verify.go)
* `uploadRunEvents` — the order of side effects of internal/upload/upload.go `Run`

Go maps are modelled as association lists whose well-formedness predicate
(`Manifest.WF`) states that keys are unique, exactly the guarantee a Go map
provides.  The filesystem is modelled as a function from path to optional
content; storage-backend and OS call outcomes are passed in explicitly as
functions, so every engine function is a pure function of its inputs.
-/

namespace EmuSync

/-- `FileEntry` from manifest.go: `{ Size int64; MD5 string }`. -/
structure FileEntry where
  size : Int
  md5 : String
deriving DecidableEq, Repr

/-- Association-list lookup, the model of a Go map read `m[key]`. -/
def lookupKey (k : String) : List (String × FileEntry) → Option FileEntry
  | [] => none
  | p :: rest => if p.1 = k then some p.2 else lookupKey k rest

/-- Removing a key, the model of Go `delete(m, key)`. -/
def removeKey (l : List (String × FileEntry)) (k : String) : List (String × FileEntry) :=
  l.filter (fun p => p.1 ≠ k)

/-- Insert-or-replace, the model of a Go map write `m[key] = v`. -/
def setKey : List (String × FileEntry) → String → FileEntry → List (String × FileEntry)
  | [], k, v => [(k, v)]
  | p :: rest, k, v => if p.1 = k then (k, v) :: rest else p :: setKey rest k v

/-- `Manifest` from manifest.go; `Version` and `GeneratedAt` play no role in
the claims, `Files` is the map path ↦ entry. -/
structure Manifest where
  files : List (String × FileEntry)

/-- The keys of a manifest's `Files` map. -/
def Manifest.keys (m : Manifest) : List String :=
  m.files.map Prod.fst

/-- A Go map has unique keys. -/
def Manifest.WF (m : Manifest) : Prop :=
  m.keys.Nodup

instance (m : Manifest) : Decidable m.WF := by
  unfold Manifest.WF; infer_instance

def Manifest.lookup (m : Manifest) (k : String) : Option FileEntry :=
  lookupKey k m.files

/-- `DiffResult` from manifest.go. -/
structure DiffResult where
  added : List String
  modified : List String
  deleted : List String
deriving DecidableEq, Repr

/-- `Diff(remote, local)` from manifest.go: one pass over `remote.Files`
classifying each entry as added (absent from local) or modified (present with
a differing MD5 or Size), then one pass over `local.Files` collecting keys
absent from remote as deleted.  The single Go loop over `remote.Files` is
rendered as two filters over the same list; each entry satisfies at most one
of the two predicates, so the lists are the ones the loop builds, in the
iteration order given by the stored list. -/
def Diff (remote loc : Manifest) : DiffResult where
  added :=
    (remote.files.filter (fun p => (lookupKey p.1 loc.files).isNone)).map Prod.fst
  modified :=
    (remote.files.filter (fun p =>
      match lookupKey p.1 loc.files with
      | none => false
      | some le => le.md5 != p.2.md5 || le.size != p.2.size)).map Prod.fst
  deleted :=
    (loc.files.filter (fun p => (lookupKey p.1 remote.files).isNone)).map Prod.fst

/-! ### Configuration — internal/config (config.go) -/

/-- `SyncConfig` from config.go (the fields the claims touch). -/
structure SyncConfig where
  emulationPath : String
  syncDirs : List String
  syncExclude : List String
  delete : Bool

/-- `Config` from config.go. -/
structure Config where
  sync : SyncConfig

/-- `strings.HasPrefix(s, p)` from the Go standard library: a byte-prefix
test; on valid UTF-8 strings a byte prefix that is itself a whole string is
exactly a character prefix, so it is modelled on the character sequence. -/
def hasPrefix (s p : String) : Bool :=
  p.data.isPrefixOf s.data

/-- `ShouldSync` from config.go: the first loop returns `false` as soon as an
`sync_exclude` entry equals the key or is a slash-terminated prefix of it; the
second loop returns `true` as soon as a `sync_dirs` entry matches the same
way; otherwise `false`.  The two early-return loops are rendered with
`List.any`. -/
def Config.ShouldSync (c : Config) (key : String) : Bool :=
  if c.sync.syncExclude.any (fun ex => key == ex || hasPrefix key (ex ++ "/")) then
    false
  else
    c.sync.syncDirs.any (fun dir => key == dir || hasPrefix key (dir ++ "/"))

/-! ### Retry policy — internal/retry/retry.go -/

/-- Outcome of `WithBackoff`: success, the operation's own error, or the
context-cancellation error `ctx.Err()` (a value distinct from any operation
error). -/
inductive RetryOutcome where
  | ok
  | err (e : Nat)
  | cancelled
deriving DecidableEq, Repr

/-- Observable trace of one `WithBackoff` run: the returned value, how many
times `fn` was called, and the inter-attempt delays (in nanoseconds) that were
fully waited. -/
structure RetryTrace where
  result : RetryOutcome
  calls : Nat
  delays : List Nat
deriving DecidableEq, Repr

/-- `time.Second` in nanoseconds: delays are modelled in `time.Duration`
units. -/
def nsPerSec : Nat := 1000000000

/-- The delay before retrying after `attempt`:
`time.Duration(1<<attempt) * time.Second` plus `rand.Int63n(int64(time.Second))`
nanoseconds of jitter. -/
def backoffDelay (attempt jitterNs : Nat) : Nat :=
  2 ^ attempt * nsPerSec + jitterNs

/-- The loop body of `WithBackoff`, from the current `attempt` with `rem`
attempts remaining after it.  `fn i` is the outcome of the i-th call (`none` =
success), `cancel i` tells whether the context is done during the delay after
attempt `i`, `jit i` is the random jitter drawn for that delay. -/
def retryFrom (fn : Nat → Option Nat) (cancel : Nat → Bool) (jit : Nat → Nat) :
    Nat → Nat → RetryTrace
  | attempt, 0 =>
    match fn attempt with
    | none => ⟨.ok, 1, []⟩
    | some e => ⟨.err e, 1, []⟩
  | attempt, rem + 1 =>
    match fn attempt with
    | none => ⟨.ok, 1, []⟩
    | some _ =>
      if cancel attempt then
        ⟨.cancelled, 1, []⟩
      else
        let t := retryFrom fn cancel jit (attempt + 1) rem
        ⟨t.result, t.calls + 1, backoffDelay attempt (jit attempt) :: t.delays⟩

/-- `WithBackoff(ctx, maxRetries, fn)` from retry.go: the loop
`for attempt := 0; attempt <= maxRetries; attempt++`. -/
def WithBackoff (maxRetries : Nat) (fn : Nat → Option Nat) (cancel : Nat → Bool)
    (jit : Nat → Nat) : RetryTrace :=
  retryFrom fn cancel jit 0 maxRetries

/-! ### Filesystem model and atomic download — internal/sync (sync.go) -/

/-- `tmpSuffix` constant from sync.go. -/
def tmpSuffix : String := ".emu-sync-tmp"

/-- `filepath.Join(emuPath, filepath.FromSlash(key))`: manifest keys are
slash-separated relative paths, so the joined path is `base ++ "/" ++ rel`. -/
def joinPath (base rel : String) : String :=
  base ++ "/" ++ rel

/-- The filesystem: path ↦ content of the file at that path, if any. -/
abbrev FS := String → Option String

def fsWrite (fs : FS) (p content : String) : FS :=
  fun q => if q = p then some content else fs q

def fsRemove (fs : FS) (p : String) : FS :=
  fun q => if q = p then none else fs q

/-- Outcome of `client.DownloadFile(ctx, key, tmpPath)`: full success with the
object's bytes, or an error after possibly writing partial bytes to the
destination. -/
inductive DlOutcome where
  | success (content : String)
  | failure (leftover : Option String)

/-- Result of `downloadOne`: the filesystem afterwards and whether the
function returned nil. -/
structure DlResult where
  fs : FS
  ok : Bool

/-- `downloadOne` from sync.go: write the download to
`localPath + tmpSuffix`; on download error, `os.Remove` the temp file and
return the error; otherwise `os.Rename` the temp file over `localPath`, and on
rename error remove the temp file and return the error.  (`os.MkdirAll` on the
parent directory is not part of the file-content model.) -/
def downloadOne (fs : FS) (emuPath key : String) (dl : DlOutcome) (renameOk : Bool) :
    DlResult :=
  let localPath := joinPath emuPath key
  let tmpPath := localPath ++ tmpSuffix
  match dl with
  | .failure leftover =>
    let fs1 := match leftover with
      | some c => fsWrite fs tmpPath c
      | none => fs
    ⟨fsRemove fs1 tmpPath, false⟩
  | .success content =>
    let fs1 := fsWrite fs tmpPath content
    if renameOk then
      ⟨fsRemove (fsWrite fs1 localPath content) tmpPath, true⟩
    else
      ⟨fsRemove fs1 tmpPath, false⟩

/-! ### Drift healing — the loop over `filteredRemote.Files` in sync.go `Run` -/

/-- The mutable state of the drift-healing pass: `diff.Added` (being appended
to) and `local.Files` (being pruned). -/
structure DriftState where
  added : List String
  localFiles : List (String × FileEntry)

/-- The `queued` set built in `Run` from the diff before the loop:
`diff.Added` ∪ `diff.Modified`. -/
def driftQueued (diff : DiffResult) (k : String) : Bool :=
  diff.added.contains k || diff.modified.contains k

/-- The loop body: skip keys already queued, keys not in the (current) local
manifest, and keys whose expected file exists on disk (`onDisk path = true`
also covers a `stat` error that is not not-exist); otherwise append the key to
`diff.Added` and drop its entry from the local manifest. -/
def driftHealGo (emuPath : String) (queued onDisk : String → Bool) :
    List (String × FileEntry) → DriftState → DriftState
  | [], st => st
  | p :: rest, st =>
    if queued p.1 then
      driftHealGo emuPath queued onDisk rest st
    else if (lookupKey p.1 st.localFiles).isNone then
      driftHealGo emuPath queued onDisk rest st
    else if onDisk (joinPath emuPath p.1) then
      driftHealGo emuPath queued onDisk rest st
    else
      driftHealGo emuPath queued onDisk rest
        ⟨st.added ++ [p.1], removeKey st.localFiles p.1⟩

/-- The drift-healing pass of sync.go `Run` (lines 119–145). -/
def driftHeal (filteredRemote loc : Manifest) (diff : DiffResult) (emuPath : String)
    (onDisk : String → Bool) : DriftState :=
  driftHealGo emuPath (driftQueued diff) onDisk filteredRemote.files
    ⟨diff.added, loc.files⟩

/-! ### Transfer phase, sequential vs. parallel — sync.go and upload.go -/

/-- The coordinator-side observables of the download phase: `result.Downloaded`,
the keys recorded in `result.Errors`, and the in-memory local manifest map. -/
structure XferState where
  downloaded : List String
  errKeys : List String
  localFiles : List (String × FileEntry)

/-- Per-key result aggregation, identical in `downloadSequential` (inline) and
in the result-draining loop of `downloadParallel`: an error is appended to
`result.Errors`; a success commits `local.Files[key] = entry` and appends to
`result.Downloaded`.  (The threshold-triggered mid-run manifest save writes the
current map to disk and changes no in-memory state.) -/
def applyDownloadResult (entries : String → FileEntry) (st : XferState) (key : String)
    (e : Option Nat) : XferState :=
  match e with
  | some _ => { st with errKeys := st.errKeys ++ [key] }
  | none =>
    { st with
      downloaded := st.downloaded ++ [key]
      localFiles := setKey st.localFiles key (entries key) }

/-- `downloadSequential` from sync.go: process the keys in queue order.
`dlErr k` is the (deterministic, per-key) outcome of the retry-wrapped
`downloadOne` for key `k` — the same backend responses for both paths. -/
def downloadSequentialM (entries : String → FileEntry) (dlErr : String → Option Nat)
    (keys : List String) (st0 : XferState) : XferState :=
  keys.foldl (fun st k => applyDownloadResult entries st k (dlErr k)) st0

/-- `downloadParallel` from sync.go: workers download concurrently and the
coordinator drains the results channel, applying the same aggregation in
whatever order results arrive; `arrivals` is that arrival order. -/
def downloadParallelM (entries : String → FileEntry) (dlErr : String → Option Nat)
    (arrivals : List String) (st0 : XferState) : XferState :=
  arrivals.foldl (fun st k => applyDownloadResult entries st k (dlErr k)) st0

/-- The coordinator-side observables of the upload phase: `result.Uploaded`
and the keys recorded in `result.Errors`. -/
structure UploadXferState where
  uploaded : List String
  errKeys : List String

/-- Per-key aggregation shared by `uploadSequential` and the result-draining
loop of `uploadParallel` in upload.go. -/
def applyUploadResult (st : UploadXferState) (key : String) (e : Option Nat) :
    UploadXferState :=
  match e with
  | some _ => { st with errKeys := st.errKeys ++ [key] }
  | none => { st with uploaded := st.uploaded ++ [key] }

/-- `uploadSequential` from upload.go. -/
def uploadSequentialM (upErr : String → Option Nat) (keys : List String)
    (st0 : UploadXferState) : UploadXferState :=
  keys.foldl (fun st k => applyUploadResult st k (upErr k)) st0

/-- `uploadParallel` from upload.go, with `arrivals` the order in which worker
results reach the coordinator. -/
def uploadParallelM (upErr : String → Option Nat) (arrivals : List String)
    (st0 : UploadXferState) : UploadXferState :=
  arrivals.foldl (fun st k => applyUploadResult st k (upErr k)) st0

/-! ### Deletion phase of sync.go `Run` (lines 172–212) -/

/-- Outcome of `os.Remove(localPath)`: removed, the file did not exist
(`os.IsNotExist(err)`), or some other error. -/
inductive RemoveOutcome where
  | removed
  | notExist
  | failed
deriving DecidableEq, Repr

/-- Observables of the deletion loop: `result.Deleted`, `result.Retained`,
the keys recorded in `result.Errors`, and the local manifest map. -/
structure DeleteAcc where
  deleted : List String
  retained : List String
  errKeys : List String
  localFiles : List (String × FileEntry)

/-- The loop over `diff.Deleted` in sync.go `Run`: dry-run only reports;
delete disabled retains; otherwise `os.Remove` — an error that is not
not-exist is recorded per-key, while success *or not-exist* drops the manifest
entry and counts the key as deleted. -/
def deletePhase (dryRun deleteAllowed : Bool) (emuPath : String)
    (removeRes : String → RemoveOutcome) :
    List String → DeleteAcc → DeleteAcc
  | [], acc => acc
  | key :: rest, acc =>
    if dryRun then
      deletePhase dryRun deleteAllowed emuPath removeRes rest
        { acc with deleted := acc.deleted ++ [key] }
    else if !deleteAllowed then
      deletePhase dryRun deleteAllowed emuPath removeRes rest
        { acc with retained := acc.retained ++ [key] }
    else
      match removeRes (joinPath emuPath key) with
      | .failed =>
        deletePhase dryRun deleteAllowed emuPath removeRes rest
          { acc with errKeys := acc.errKeys ++ [key] }
      | _ =>
        deletePhase dryRun deleteAllowed emuPath removeRes rest
          { acc with
            deleted := acc.deleted ++ [key]
            localFiles := removeKey acc.localFiles key }

/-! ### Verify — internal/sync (verify.go) -/

/-- Observables of `Verify`: the three report lists, the keys to drop from the
local manifest, and the paths passed to `manifest.HashFile` (recorded so that
"the file is never hashed" is statable). -/
structure VerifyAcc where
  okFiles : List String
  mismatch : List String
  missing : List String
  toRemove : List String
  hashed : List String
deriving DecidableEq, Repr

/-- The loop over `local.Files` in verify.go: missing file → "missing" and
drop; size differs → "mismatch" and drop, without hashing; otherwise hash and
compare — hash differs → "mismatch" and drop, else "ok".  `disk path` is the
`os.Stat`+read view of the file at `path` (size and content), `md5 c` the hex
digest of content `c`. -/
def verifyGo (disk : String → Option (Int × String)) (md5 : String → String)
    (emuPath : String) : List (String × FileEntry) → VerifyAcc → VerifyAcc
  | [], acc => acc
  | (key, entry) :: rest, acc =>
    match disk (joinPath emuPath key) with
    | none =>
      verifyGo disk md5 emuPath rest
        { acc with
          missing := acc.missing ++ [key]
          toRemove := acc.toRemove ++ [key] }
    | some (sz, content) =>
      if sz ≠ entry.size then
        verifyGo disk md5 emuPath rest
          { acc with
            mismatch := acc.mismatch ++ [key]
            toRemove := acc.toRemove ++ [key] }
      else if md5 content ≠ entry.md5 then
        verifyGo disk md5 emuPath rest
          { acc with
            mismatch := acc.mismatch ++ [key]
            toRemove := acc.toRemove ++ [key]
            hashed := acc.hashed ++ [joinPath emuPath key] }
      else
        verifyGo disk md5 emuPath rest
          { acc with
            okFiles := acc.okFiles ++ [key]
            hashed := acc.hashed ++ [joinPath emuPath key] }

/-- `Verify` from verify.go: classify every manifest entry, then remove every
`toRemove` key from the local manifest (the manifest that gets persisted).
I/O errors from `os.Stat` or `HashFile` other than not-exist are environmental
and outside this filesystem model. -/
def Verify (disk : String → Option (Int × String)) (md5 : String → String)
    (emuPath : String) (loc : Manifest) : VerifyAcc × Manifest :=
  let acc := verifyGo disk md5 emuPath loc.files ⟨[], [], [], [], []⟩
  (acc, ⟨loc.files.filter (fun p => !acc.toRemove.contains p.1)⟩)

/-! ### Order of side effects of upload.go `Run` -/

/-- The externally visible actions of `upload.Run`, in program order. -/
inductive UpEvent where
  | uploadFile (key : String)
  | deleteObject (key : String)
  | saveCache
  | uploadManifest
deriving DecidableEq, Repr

/-- The sequence of actions `upload.Run` performs after the scan and diff, as
written in upload.go: in manifest-only mode, save the cache then publish the
manifest; otherwise transfer `toUpload`, delete `diff.Deleted` objects, and
only then (`if !opts.DryRun` at the end of `Run`) save the cache and publish
the manifest.  Dry-run performs none of these actions. -/
def uploadRunEvents (dryRun manifestOnly : Bool) (toUpload deleted : List String) :
    List UpEvent :=
  if manifestOnly then
    if dryRun then [] else [.saveCache, .uploadManifest]
  else
    (if dryRun then [] else toUpload.map UpEvent.uploadFile)
      ++ (if dryRun then [] else deleted.map UpEvent.deleteObject)
      ++ (if dryRun then [] else [.saveCache, .uploadManifest])

/-! ### Concrete fixtures used by the witness theorems -/

def entX : FileEntry := ⟨1, "h1"⟩
def entY : FileEntry := ⟨2, "h2"⟩
def entYv2 : FileEntry := ⟨2, "h3"⟩
def entZ : FileEntry := ⟨4, "h4"⟩

def mA : Manifest := ⟨[("x", entX), ("y", entY)]⟩
def mB : Manifest := ⟨[("y", entYv2), ("z", entZ)]⟩

def fsEmpty : FS := fun _ => none

def fnFailEx : Nat → Option Nat := fun i => some (10 + i)
def cancelNever : Nat → Bool := fun _ => false
def jitEx : Nat → Nat := fun _ => 5
def EEx : Nat → Nat := fun i => 10 + i

def entriesEx : String → FileEntry := fun _ => entX
def dlErrEx : String → Option Nat := fun k => if k = "b" then some 1 else none
def xferEmpty : XferState := ⟨[], [], []⟩
def upXferEmpty : UploadXferState := ⟨[], []⟩

def removeResNotExist : String → RemoveOutcome := fun _ => .notExist
def deleteAccEx : DeleteAcc := ⟨[], [], [], [("x", entX)]⟩

def diskEx : String → Option (Int × String) :=
  fun p =>
    if p = "/emu/x" then some (1, "cx")
    else if p = "/emu/y" then some (9, "cy")
    else none

def md5Ex : String → String := fun c => if c = "cx" then "h1" else "other"

def offDisk : String → Bool := fun _ => false

def diffEx : DiffResult := ⟨["a"], ["m"], []⟩
def frEx : Manifest := ⟨[("a", entX), ("m", entY), ("y", entYv2)]⟩
def locEx : Manifest := ⟨[("m", entX), ("y", entYv2)]⟩

def cfgEx : Config :=
  ⟨⟨"/emu", ["roms", "bios"], ["roms/psx"], true⟩⟩

end EmuSync

namespace EmuSync

/-! ## Lemmas about the association-list map model -/

theorem lookupKey_eq_none_iff (k : String) (l : List (String × FileEntry)) :
    lookupKey k l = none ↔ k ∉ l.map Prod.fst := by
  induction l with
  | nil => simp [lookupKey]
  | cons p rest ih =>
    by_cases h : p.1 = k
    · simp [lookupKey, h]
    · simp [lookupKey, h, ih, Ne.symm h]

theorem lookupKey_isSome_iff (k : String) (l : List (String × FileEntry)) :
    (lookupKey k l).isSome ↔ k ∈ l.map Prod.fst := by
  induction l with
  | nil => simp [lookupKey]
  | cons p rest ih =>
    by_cases h : p.1 = k
    · simp [lookupKey, h]
    · simp [lookupKey, h, ih, Ne.symm h]

theorem lookupKey_of_mem_nodup {k : String} {v : FileEntry}
    {l : List (String × FileEntry)} (hnd : (l.map Prod.fst).Nodup)
    (hm : (k, v) ∈ l) : lookupKey k l = some v := by
  induction l with
  | nil => cases hm
  | cons p rest ih =>
    simp only [List.map_cons, List.nodup_cons] at hnd
    rcases List.mem_cons.mp hm with h | h
    · subst h; simp [lookupKey]
    · have hk : p.1 ≠ k := by
        intro he
        exact hnd.1 (he ▸ (List.mem_map.mpr ⟨(k, v), h, rfl⟩))
      simp [lookupKey, hk, ih hnd.2 h]

theorem mem_of_lookupKey_eq_some {k : String} {v : FileEntry}
    {l : List (String × FileEntry)} (h : lookupKey k l = some v) : (k, v) ∈ l := by
  induction l with
  | nil => simp [lookupKey] at h
  | cons p rest ih =>
    by_cases hk : p.1 = k
    · simp only [lookupKey, if_pos hk] at h
      have hv : p.2 = v := Option.some.inj h
      exact List.mem_cons.mpr (Or.inl (by cases p; simp_all))
    · simp only [lookupKey, if_neg hk] at h
      exact List.mem_cons_of_mem _ (ih h)

theorem FileEntry.ne_iff (a b : FileEntry) :
    a ≠ b ↔ a.md5 ≠ b.md5 ∨ a.size ≠ b.size := by
  cases a; cases b
  simp only [ne_eq, FileEntry.mk.injEq, not_and]
  tauto

/-! ## C1 and C2: the diff algorithm -/

theorem mem_diff_added_iff (A B : Manifest) (k : String) :
    k ∈ (Diff A B).added ↔ k ∈ A.keys ∧ k ∉ B.keys := by
  simp only [Diff, List.mem_map, List.mem_filter, Manifest.keys]
  constructor
  · rintro ⟨p, ⟨hp, hn⟩, rfl⟩
    refine ⟨⟨p, hp, rfl⟩, ?_⟩
    have h0 : lookupKey p.1 B.files = none := Option.isNone_iff_eq_none.mp hn
    rw [lookupKey_eq_none_iff, List.mem_map] at h0
    exact h0
  · rintro ⟨⟨p, hp, rfl⟩, hnb⟩
    refine ⟨p, ⟨hp, ?_⟩, rfl⟩
    rw [Option.isNone_iff_eq_none, lookupKey_eq_none_iff, List.mem_map]
    exact hnb

theorem mem_diff_modified_iff (A B : Manifest) (hA : A.WF) (k : String) :
    k ∈ (Diff A B).modified ↔
      ∃ ea eb, A.lookup k = some ea ∧ B.lookup k = some eb ∧
        (eb.md5 ≠ ea.md5 ∨ eb.size ≠ ea.size) := by
  simp only [Diff, List.mem_map, List.mem_filter, Manifest.lookup]
  constructor
  · rintro ⟨p, ⟨hp, hcond⟩, rfl⟩
    rcases hlb : lookupKey p.1 B.files with _ | le
    · rw [hlb] at hcond; simp at hcond
    · rw [hlb] at hcond
      refine ⟨p.2, le, lookupKey_of_mem_nodup hA hp, rfl, ?_⟩
      simpa [bne_iff_ne] using hcond
  · rintro ⟨ea, eb, hla, hlb, hne⟩
    refine ⟨(k, ea), ⟨mem_of_lookupKey_eq_some hla, ?_⟩, rfl⟩
    rw [hlb]
    simpa [bne_iff_ne] using hne

/-- C1: `Diff(A, B)` classifies keys exactly as the spec states: `added` is
the set of keys in A's files map absent from B's, `modified` the set of keys
present in both whose `FileEntry` differs in content hash or size, `deleted`
the set of keys in B absent from A.  `Diff` is a pure Lean function of its two
arguments, so it has no side effects and cannot mutate its inputs by
construction. -/
theorem diff_classifies_exactly (A B : Manifest) (hA : A.WF) :
    (∀ k, k ∈ (Diff A B).added ↔ k ∈ A.keys ∧ k ∉ B.keys)
    ∧ (∀ k, k ∈ (Diff A B).modified ↔
        ∃ ea eb, A.lookup k = some ea ∧ B.lookup k = some eb ∧
          (eb.md5 ≠ ea.md5 ∨ eb.size ≠ ea.size))
    ∧ (∀ k, k ∈ (Diff A B).deleted ↔ k ∈ B.keys ∧ k ∉ A.keys) := by
  refine ⟨fun k => mem_diff_added_iff A B k,
          fun k => mem_diff_modified_iff A B hA k, fun k => ?_⟩
  simp only [Diff, List.mem_map, List.mem_filter, Manifest.keys]
  constructor
  · rintro ⟨p, ⟨hp, hn⟩, rfl⟩
    refine ⟨⟨p, hp, rfl⟩, ?_⟩
    have h0 : lookupKey p.1 A.files = none := Option.isNone_iff_eq_none.mp hn
    rw [lookupKey_eq_none_iff, List.mem_map] at h0
    exact h0
  · rintro ⟨⟨p, hp, rfl⟩, hna⟩
    refine ⟨p, ⟨hp, ?_⟩, rfl⟩
    rw [Option.isNone_iff_eq_none, lookupKey_eq_none_iff, List.mem_map]
    exact hna

theorem diff_classifies_exactly_witness :
    mA.WF ∧ ("x" ∈ (Diff mA mB).added ↔ "x" ∈ mA.keys ∧ "x" ∉ mB.keys) :=
  ⟨by decide, (diff_classifies_exactly mA mB (by decide)).1 "x"⟩

/-- C2: `Diff(A,B).added` and `Diff(B,A).deleted` are computed by the very
same filter over A's entries (and symmetrically), so they are equal as lists;
and `Diff(A,A)` is empty in all three fields. -/
theorem diff_inverse_roundtrip (A B : Manifest) (hA : A.WF) :
    (Diff A B).added = (Diff B A).deleted
    ∧ (Diff A B).deleted = (Diff B A).added
    ∧ Diff A A = ⟨[], [], []⟩ := by
  refine ⟨rfl, rfl, ?_⟩
  have hsome : ∀ p ∈ A.files, (lookupKey p.1 A.files).isSome := by
    intro p hp
    exact (lookupKey_isSome_iff _ _).mpr (List.mem_map.mpr ⟨p, hp, rfl⟩)
  have hadded : (A.files.filter (fun p => (lookupKey p.1 A.files).isNone)) = [] := by
    rw [List.filter_eq_nil_iff]
    intro p hp
    simp [Option.isNone_iff_eq_none, ← Option.isSome_iff_ne_none, hsome p hp]
  have hmod : (A.files.filter (fun p =>
      match lookupKey p.1 A.files with
      | none => false
      | some le => le.md5 != p.2.md5 || le.size != p.2.size)) = [] := by
    rw [List.filter_eq_nil_iff]
    intro p hp
    have : lookupKey p.1 A.files = some p.2 := by
      apply lookupKey_of_mem_nodup hA
      cases p; exact hp
    simp [this]
  simp only [Diff, DiffResult.mk.injEq]
  exact ⟨by rw [hadded]; rfl, by rw [hmod]; rfl, by rw [hadded]; rfl⟩

theorem diff_inverse_roundtrip_witness :
    mA.WF ∧ ((Diff mA mB).added = (Diff mB mA).deleted
      ∧ (Diff mA mB).deleted = (Diff mB mA).added
      ∧ Diff mA mA = ⟨[], [], []⟩) :=
  ⟨by decide, diff_inverse_roundtrip mA mB (by decide)⟩

end EmuSync

namespace EmuSync

/-! ## C10: the ShouldSync selection predicate -/

theorem hasPrefix_iff (s p : String) : hasPrefix s p = true ↔ ∃ t, s = p ++ t := by
  cases p with | mk pd =>
  cases s with | mk sd =>
  unfold hasPrefix
  rw [List.isPrefixOf_iff_prefix]
  constructor
  · rintro ⟨t, ht⟩
    exact ⟨⟨t⟩, String.ext ht.symm⟩
  · rintro ⟨t, ht⟩
    cases t with | mk td =>
    refine ⟨td, ?_⟩
    have h2 : sd = pd ++ td := congrArg String.data ht
    exact h2.symm

/-- C10: `ShouldSync` gives exclusion precedence over inclusion — the key is
synced exactly when no `sync_exclude` entry equals it or is a slash-terminated
prefix of it, *and* some `sync_dirs` entry equals it or is a slash-terminated
prefix of it.  In particular a key matching an exclude entry is never synced,
even when it also matches a `sync_dirs` entry, and a key matching no
`sync_dirs` entry is never synced. -/
theorem shouldSync_exclude_precedence (c : Config) (key : String) :
    c.ShouldSync key = true ↔
      (∀ ex ∈ c.sync.syncExclude, key ≠ ex ∧ ∀ t, key ≠ ex ++ "/" ++ t)
        ∧ (∃ dir ∈ c.sync.syncDirs, key = dir ∨ ∃ t, key = dir ++ "/" ++ t) := by
  unfold Config.ShouldSync
  by_cases hex :
      c.sync.syncExclude.any (fun ex => key == ex || hasPrefix key (ex ++ "/")) = true
  · rw [if_pos hex]
    constructor
    · intro h; cases h
    · rintro ⟨hno, -⟩
      exfalso
      obtain ⟨ex, hmem, hcond⟩ := List.any_eq_true.mp hex
      rcases Bool.or_eq_true_iff.mp hcond with h | h
      · exact (hno ex hmem).1 (eq_of_beq h)
      · obtain ⟨t, ht⟩ := (hasPrefix_iff _ _).mp h
        exact (hno ex hmem).2 t ht
  · rw [if_neg hex]
    have hnoex : ∀ ex ∈ c.sync.syncExclude, key ≠ ex ∧ ∀ t, key ≠ ex ++ "/" ++ t := by
      intro ex hmem
      have hc : (key == ex || hasPrefix key (ex ++ "/")) = false := by
        by_contra hcc
        exact hex (List.any_eq_true.mpr
          ⟨ex, hmem, by revert hcc; cases key == ex || hasPrefix key (ex ++ "/") <;> simp⟩)
      rw [Bool.or_eq_false_iff] at hc
      refine ⟨fun he => by simp [he] at hc, fun t ht => ?_⟩
      have hpre : hasPrefix key (ex ++ "/") = true := (hasPrefix_iff _ _).mpr ⟨t, ht⟩
      rw [hpre] at hc
      exact absurd hc.2 (by simp)
    constructor
    · intro h
      obtain ⟨dir, hmem, hcond⟩ := List.any_eq_true.mp h
      refine ⟨hnoex, dir, hmem, ?_⟩
      rcases Bool.or_eq_true_iff.mp hcond with h2 | h2
      · exact Or.inl (eq_of_beq h2)
      · obtain ⟨t, ht⟩ := (hasPrefix_iff _ _).mp h2
        exact Or.inr ⟨t, ht⟩
    · rintro ⟨-, dir, hmem, hcond⟩
      refine List.any_eq_true.mpr ⟨dir, hmem, ?_⟩
      rcases hcond with rfl | ⟨t, rfl⟩
      · simp
      · refine Bool.or_eq_true_iff.mpr (Or.inr ?_)
        exact (hasPrefix_iff _ _).mpr ⟨t, rfl⟩

theorem shouldSync_exclude_precedence_witness :
    cfgEx.ShouldSync "roms/psx/Game.bin" = true ↔
      (∀ ex ∈ cfgEx.sync.syncExclude,
          "roms/psx/Game.bin" ≠ ex ∧ ∀ t, "roms/psx/Game.bin" ≠ ex ++ "/" ++ t)
        ∧ (∃ dir ∈ cfgEx.sync.syncDirs,
            "roms/psx/Game.bin" = dir ∨ ∃ t, "roms/psx/Game.bin" = dir ++ "/" ++ t) :=
  shouldSync_exclude_precedence cfgEx "roms/psx/Game.bin"

end EmuSync

namespace EmuSync

/-! ## C6: retry with exponential backoff -/

theorem retryFrom_step (fn : Nat → Option Nat) (cancel : Nat → Bool) (jit : Nat → Nat)
    (attempt r e : Nat) (h0 : fn attempt = some e) (hc : cancel attempt = false) :
    retryFrom fn cancel jit attempt (r + 1) =
      ⟨(retryFrom fn cancel jit (attempt + 1) r).result,
       (retryFrom fn cancel jit (attempt + 1) r).calls + 1,
       backoffDelay attempt (jit attempt) ::
         (retryFrom fn cancel jit (attempt + 1) r).delays⟩ := by
  rw [retryFrom]
  rw [h0, hc]
  simp

theorem retryFrom_all_fail (fn : Nat → Option Nat) (cancel : Nat → Bool)
    (jit : Nat → Nat) (E : Nat → Nat) :
    ∀ rem attempt, (∀ i, attempt ≤ i → i ≤ attempt + rem → fn i = some (E i)) →
      (∀ i, cancel i = false) →
      retryFrom fn cancel jit attempt rem =
        ⟨.err (E (attempt + rem)), rem + 1,
         (List.range rem).map (fun j => backoffDelay (attempt + j) (jit (attempt + j)))⟩ := by
  intro rem
  induction rem with
  | zero =>
    intro attempt hf _
    have h0 : fn attempt = some (E attempt) := hf attempt le_rfl (Nat.le_add_right _ _)
    simp [retryFrom, h0]
  | succ r ih =>
    intro attempt hf hc
    have h0 : fn attempt = some (E attempt) := hf attempt le_rfl (Nat.le_add_right _ _)
    have hrec := ih (attempt + 1)
      (fun i hi1 hi2 => hf i (Nat.le_of_succ_le hi1) (by omega)) hc
    rw [retryFrom_step fn cancel jit attempt r (E attempt) h0 (hc attempt), hrec]
    simp only [RetryTrace.mk.injEq]
    refine ⟨by rw [show attempt + 1 + r = attempt + (r + 1) by omega], trivial, ?_⟩
    rw [List.range_succ_eq_map, List.map_cons, List.map_map]
    simp only [List.cons.injEq]
    refine ⟨by rw [Nat.add_zero], ?_⟩
    refine List.map_congr_left (fun j _ => ?_)
    simp only [Function.comp_apply]
    rw [show attempt + 1 + j = attempt + Nat.succ j by omega]

theorem retryFrom_cancelled (fn : Nat → Option Nat) (cancel : Nat → Bool)
    (jit : Nat → Nat) (E : Nat → Nat) :
    ∀ k rem attempt, k < rem → (∀ i, attempt ≤ i → i ≤ attempt + k → fn i = some (E i)) →
      (∀ i, attempt ≤ i → i < attempt + k → cancel i = false) →
      cancel (attempt + k) = true →
      retryFrom fn cancel jit attempt rem =
        ⟨.cancelled, k + 1,
         (List.range k).map (fun j => backoffDelay (attempt + j) (jit (attempt + j)))⟩ := by
  intro k
  induction k with
  | zero =>
    intro rem attempt hlt hf _ hck
    obtain ⟨r, rfl⟩ : ∃ r, rem = r + 1 := ⟨rem - 1, by omega⟩
    have h0 : fn attempt = some (E attempt) := hf attempt le_rfl (Nat.le_add_right _ _)
    rw [Nat.add_zero] at hck
    simp [retryFrom, h0, hck]
  | succ kk ih =>
    intro rem attempt hlt hf hc hck
    obtain ⟨r, rfl⟩ : ∃ r, rem = r + 1 := ⟨rem - 1, by omega⟩
    have h0 : fn attempt = some (E attempt) := hf attempt le_rfl (Nat.le_add_right _ _)
    have hca : cancel attempt = false := hc attempt le_rfl (by omega)
    have hrec := ih r (attempt + 1) (by omega)
      (fun i hi1 hi2 => hf i (Nat.le_of_succ_le hi1) (by omega))
      (fun i hi1 hi2 => hc i (Nat.le_of_succ_le hi1) (by omega))
      (by rw [show attempt + 1 + kk = attempt + (kk + 1) by omega]; exact hck)
    rw [retryFrom_step fn cancel jit attempt r (E attempt) h0 hca, hrec]
    simp only [RetryTrace.mk.injEq]
    refine ⟨trivial, trivial, ?_⟩
    rw [List.range_succ_eq_map, List.map_cons, List.map_map]
    simp only [List.cons.injEq]
    refine ⟨by rw [Nat.add_zero], ?_⟩
    refine List.map_congr_left (fun j _ => ?_)
    simp only [Function.comp_apply]
    rw [show attempt + 1 + j = attempt + Nat.succ j by omega]

/-- C6: `WithBackoff(maxAttempts, fn)` calls `fn` immediately and returns nil
on first success; `maxAttempts = 0` means exactly one call and no retry; when
every attempt fails and no cancellation occurs it makes `maxAttempts + 1`
calls, waits `2^attempt` seconds plus the drawn jitter (which is below one
second) between attempts, and returns the error of the last (most recent)
attempt; and a cancellation signal observed during the delay after attempt `k`
aborts immediately with the distinct cancelled outcome after `k + 1` calls. -/
theorem withBackoff_spec (mr : Nat) (fn : Nat → Option Nat) (cancel : Nat → Bool)
    (jit : Nat → Nat) (E : Nat → Nat) :
    (fn 0 = none → WithBackoff mr fn cancel jit = ⟨.ok, 1, []⟩)
    ∧ (WithBackoff 0 fn cancel jit =
        match fn 0 with
        | none => ⟨.ok, 1, []⟩
        | some e => ⟨.err e, 1, []⟩)
    ∧ ((∀ i, i ≤ mr → fn i = some (E i)) → (∀ i, cancel i = false) →
        WithBackoff mr fn cancel jit =
          ⟨.err (E mr), mr + 1, (List.range mr).map (fun j => backoffDelay j (jit j))⟩)
    ∧ (∀ i, jit i < nsPerSec →
        2 ^ i * nsPerSec ≤ backoffDelay i (jit i)
          ∧ backoffDelay i (jit i) < 2 ^ i * nsPerSec + nsPerSec)
    ∧ (∀ k, k < mr → (∀ i, i ≤ k → fn i = some (E i)) →
        (∀ i, i < k → cancel i = false) → cancel k = true →
        WithBackoff mr fn cancel jit =
          ⟨.cancelled, k + 1, (List.range k).map (fun j => backoffDelay j (jit j))⟩) := by
  refine ⟨?_, ?_, ?_, ?_, ?_⟩
  · intro h
    cases mr <;> simp [WithBackoff, retryFrom, h]
  · rfl
  · intro hf hc
    have h := retryFrom_all_fail fn cancel jit E mr 0
      (fun i _ hi2 => hf i (by omega)) hc
    simpa using h
  · intro i hj
    unfold backoffDelay
    omega
  · intro k hk hf hc hck
    have h := retryFrom_cancelled fn cancel jit E k mr 0 hk
      (fun i _ hi2 => hf i (by omega)) (fun i _ hi2 => hc i (by omega))
      (by simpa using hck)
    simpa using h

theorem withBackoff_spec_witness :
    (∀ i, i ≤ 2 → fnFailEx i = some (EEx i)) ∧ (∀ i, cancelNever i = false) ∧
    WithBackoff 2 fnFailEx cancelNever jitEx =
      ⟨.err (EEx 2), 2 + 1, (List.range 2).map (fun j => backoffDelay j (jitEx j))⟩ :=
  ⟨fun _ _ => rfl, fun _ => rfl,
   (withBackoff_spec 2 fnFailEx cancelNever jitEx EEx).2.2.1
     (fun _ _ => rfl) (fun _ => rfl)⟩

end EmuSync

namespace EmuSync

/-! ## C3: atomic single-file download -/

theorem string_append_ne_self (s t : String) (ht : t ≠ "") : s ++ t ≠ s := by
  intro h
  apply ht
  have hd : s.data ++ t.data = s.data ++ [] := by
    rw [List.append_nil]
    calc s.data ++ t.data = (s ++ t).data := (String.data_append s t).symm
    _ = s.data := congrArg String.data h
  exact String.ext (List.append_cancel_left hd)

/-- C3: `downloadOne` is atomic.  In every outcome the temp path
(final path plus `tmpSuffix`) holds no file afterwards; when `downloadOne`
returns nil the final path holds exactly the downloaded content; and on any
failure — a download error (even one that wrote partial bytes to the temp
path) or a rename error — the file at the final path is exactly what it was
before the call, so it never holds partial content. -/
theorem downloadOne_atomic (fs : FS) (emuPath key : String) (dl : DlOutcome)
    (renameOk : Bool) :
    ((downloadOne fs emuPath key dl renameOk).fs
        (joinPath emuPath key ++ tmpSuffix) = none)
    ∧ ((downloadOne fs emuPath key dl renameOk).ok = true →
        ∃ c, dl = .success c ∧
          (downloadOne fs emuPath key dl renameOk).fs (joinPath emuPath key) = some c)
    ∧ ((downloadOne fs emuPath key dl renameOk).ok = false →
        (downloadOne fs emuPath key dl renameOk).fs (joinPath emuPath key) =
          fs (joinPath emuPath key)) := by
  have hne : joinPath emuPath key ++ tmpSuffix ≠ joinPath emuPath key :=
    string_append_ne_self _ _ (by decide)
  have hne2 : joinPath emuPath key ≠ joinPath emuPath key ++ tmpSuffix := Ne.symm hne
  cases dl with
  | failure leftover =>
    cases leftover <;> simp [downloadOne, fsRemove, fsWrite, hne, hne2]
  | success content =>
    cases renameOk <;> simp [downloadOne, fsRemove, fsWrite, hne, hne2]

theorem downloadOne_atomic_witness :
    ∃ c, (DlOutcome.success "data") = .success c ∧
      (downloadOne fsEmpty "/emu" "roms/a.bin" (.success "data") true).fs
        (joinPath "/emu" "roms/a.bin") = some c :=
  (downloadOne_atomic fsEmpty "/emu" "roms/a.bin" (.success "data") true).2.1 rfl

end EmuSync

namespace EmuSync

/-! ## C9: deletion of a file already missing from disk -/

theorem not_mem_keys_removeKey (l : List (String × FileEntry)) (k : String) :
    k ∉ (removeKey l k).map Prod.fst := by
  simp only [removeKey, List.mem_map, List.mem_filter]
  rintro ⟨p, ⟨-, hne⟩, rfl⟩
  simp at hne

theorem deletePhase_deleted_mono (emuPath : String)
    (removeRes : String → RemoveOutcome) (k : String) :
    ∀ (l : List String) (acc : DeleteAcc), k ∈ acc.deleted →
      k ∈ (deletePhase false true emuPath removeRes l acc).deleted := by
  intro l
  induction l with
  | nil => intro acc h; simpa [deletePhase] using h
  | cons x rest ih =>
    intro acc h
    rw [deletePhase]
    simp only [Bool.false_eq_true, if_false, Bool.not_true]
    cases hrr : removeRes (joinPath emuPath x) <;>
      simp only [hrr] <;> exact ih _ (by simp [h])

theorem deletePhase_localFiles_sub (emuPath : String)
    (removeRes : String → RemoveOutcome) (x : String) :
    ∀ (l : List String) (acc : DeleteAcc),
      x ∈ (deletePhase false true emuPath removeRes l acc).localFiles.map Prod.fst →
      x ∈ acc.localFiles.map Prod.fst := by
  intro l
  induction l with
  | nil => intro acc h; simpa [deletePhase] using h
  | cons y rest ih =>
    intro acc h
    rw [deletePhase] at h
    simp only [Bool.false_eq_true, if_false, Bool.not_true] at h
    cases hrr : removeRes (joinPath emuPath y) <;> simp only [hrr] at h
    · have h2 := ih _ h
      simp only [removeKey, List.mem_map, List.mem_filter] at h2
      obtain ⟨p, ⟨hp, -⟩, rfl⟩ := h2
      exact List.mem_map.mpr ⟨p, hp, rfl⟩
    · have h2 := ih _ h
      simp only [removeKey, List.mem_map, List.mem_filter] at h2
      obtain ⟨p, ⟨hp, -⟩, rfl⟩ := h2
      exact List.mem_map.mpr ⟨p, hp, rfl⟩
    · exact ih { acc with errKeys := acc.errKeys ++ [y] } h

theorem deletePhase_errKeys_stable (emuPath : String)
    (removeRes : String → RemoveOutcome) (k : String)
    (hnr : removeRes (joinPath emuPath k) ≠ .failed) :
    ∀ (l : List String) (acc : DeleteAcc), k ∉ acc.errKeys →
      k ∉ (deletePhase false true emuPath removeRes l acc).errKeys := by
  intro l
  induction l with
  | nil => intro acc h; simpa [deletePhase] using h
  | cons x rest ih =>
    intro acc h
    rw [deletePhase]
    simp only [Bool.false_eq_true, if_false, Bool.not_true]
    cases hrr : removeRes (joinPath emuPath x) <;> simp only [hrr]
    · exact ih _ h
    · exact ih _ h
    · refine ih _ ?_
      simp only [List.mem_append, List.mem_singleton]
      rintro (hmem | rfl)
      · exact h hmem
      · exact hnr hrr

/-- C9: in a non-dry-run deletion pass with deletion enabled, a key of
`diff.Deleted` whose local file is already absent from disk (`os.Remove`
returns a not-exist error) is still counted as deleted and its local-manifest
entry is dropped, and the not-exist error is not recorded as a per-file
error. -/
theorem deletePhase_missing_file_deleted (emuPath : String)
    (removeRes : String → RemoveOutcome) (keys : List String) (acc0 : DeleteAcc)
    (k : String) (hk : k ∈ keys)
    (hnr : removeRes (joinPath emuPath k) = .notExist)
    (hke : k ∉ acc0.errKeys) :
    k ∈ (deletePhase false true emuPath removeRes keys acc0).deleted
    ∧ k ∉ (deletePhase false true emuPath removeRes keys acc0).localFiles.map Prod.fst
    ∧ k ∉ (deletePhase false true emuPath removeRes keys acc0).errKeys := by
  induction keys generalizing acc0 with
  | nil => cases hk
  | cons x rest ih =>
    by_cases hx : x = k
    · subst hx
      rw [deletePhase]
      simp only [Bool.false_eq_true, if_false, Bool.not_true, hnr]
      refine ⟨deletePhase_deleted_mono _ _ _ rest _ (by simp), fun hmem => ?_,
        deletePhase_errKeys_stable _ _ _ (by rw [hnr]; intro hcc; cases hcc) rest _ hke⟩
      exact not_mem_keys_removeKey acc0.localFiles x
        (deletePhase_localFiles_sub _ _ _ rest _ hmem)
    · have hk2 : k ∈ rest := by
        rcases List.mem_cons.mp hk with h | h
        · exact absurd h.symm hx
        · exact h
      rw [deletePhase]
      simp only [Bool.false_eq_true, if_false, Bool.not_true]
      cases hrr : removeRes (joinPath emuPath x) <;> simp only [hrr]
      · exact ih _ hk2 hke
      · exact ih _ hk2 hke
      · refine ih _ hk2 ?_
        simp only [List.mem_append, List.mem_singleton]
        rintro (hmem | rfl)
        · exact hke hmem
        · exact hx rfl

theorem deletePhase_missing_file_deleted_witness :
    ("x" ∈ (["x"] : List String)
      ∧ removeResNotExist (joinPath "/emu" "x") = RemoveOutcome.notExist
      ∧ "x" ∉ deleteAccEx.errKeys)
    ∧ ("x" ∈ (deletePhase false true "/emu" removeResNotExist ["x"] deleteAccEx).deleted
      ∧ "x" ∉ (deletePhase false true "/emu" removeResNotExist ["x"]
          deleteAccEx).localFiles.map Prod.fst
      ∧ "x" ∉ (deletePhase false true "/emu" removeResNotExist ["x"] deleteAccEx).errKeys) :=
  ⟨⟨by simp, rfl, by simp [deleteAccEx]⟩,
   deletePhase_missing_file_deleted "/emu" removeResNotExist ["x"] deleteAccEx "x"
     (by simp) rfl (by simp [deleteAccEx])⟩

end EmuSync

namespace EmuSync

/-! ## C5: drift healing -/

theorem mem_keys_removeKey_of_ne {l : List (String × FileEntry)} {x k : String}
    (hne : x ≠ k) (h : x ∈ l.map Prod.fst) : x ∈ (removeKey l k).map Prod.fst := by
  obtain ⟨p, hp, rfl⟩ := List.mem_map.mp h
  exact List.mem_map.mpr ⟨p, List.mem_filter.mpr ⟨hp, by simpa using hne⟩, rfl⟩

theorem bool_not_true_eq_false {b : Bool} (h : ¬b = true) : b = false := by
  revert h; cases b <;> simp

theorem driftHealGo_added_suffix (emuPath : String) (queued onDisk : String → Bool) :
    ∀ (l : List (String × FileEntry)) (st : DriftState),
      ∃ extra, (driftHealGo emuPath queued onDisk l st).added = st.added ++ extra
        ∧ ∀ k ∈ extra, queued k = false := by
  intro l
  induction l with
  | nil =>
    intro st
    exact ⟨[], by simp [driftHealGo], by simp⟩
  | cons p rest ih =>
    intro st
    rw [driftHealGo]
    by_cases hq : queued p.1 = true
    · simp only [hq, if_true]
      exact ih st
    · have hq2 : queued p.1 = false := bool_not_true_eq_false hq
      simp only [hq2, Bool.false_eq_true, if_false]
      by_cases hn : (lookupKey p.1 st.localFiles).isNone = true
      · simp only [hn, if_true]
        exact ih st
      · simp only [bool_not_true_eq_false hn, Bool.false_eq_true, if_false]
        by_cases hd : onDisk (joinPath emuPath p.1) = true
        · simp only [hd, if_true]
          exact ih st
        · simp only [bool_not_true_eq_false hd, Bool.false_eq_true, if_false]
          obtain ⟨extra, heq, hall⟩ := ih ⟨st.added ++ [p.1], removeKey st.localFiles p.1⟩
          refine ⟨p.1 :: extra, ?_, ?_⟩
          · rw [heq]
            simp
          · intro k hk
            rcases List.mem_cons.mp hk with rfl | hk2
            · exact hq2
            · exact hall k hk2

theorem driftHealGo_localFiles_sub (emuPath : String) (queued onDisk : String → Bool)
    (x : String) :
    ∀ (l : List (String × FileEntry)) (st : DriftState),
      x ∈ (driftHealGo emuPath queued onDisk l st).localFiles.map Prod.fst →
      x ∈ st.localFiles.map Prod.fst := by
  intro l
  induction l with
  | nil =>
    intro st h
    simpa [driftHealGo] using h
  | cons p rest ih =>
    intro st h
    rw [driftHealGo] at h
    by_cases hq : queued p.1 = true
    · rw [if_pos hq] at h
      exact ih st h
    · rw [if_neg (by simp [bool_not_true_eq_false hq])] at h
      by_cases hn : (lookupKey p.1 st.localFiles).isNone = true
      · rw [if_pos hn] at h
        exact ih st h
      · rw [if_neg (by simp [bool_not_true_eq_false hn])] at h
        by_cases hd : onDisk (joinPath emuPath p.1) = true
        · rw [if_pos hd] at h
          exact ih st h
        · rw [if_neg (by simp [bool_not_true_eq_false hd])] at h
          have h2 := ih ⟨st.added ++ [p.1], removeKey st.localFiles p.1⟩ h
          simp only [removeKey, List.mem_map, List.mem_filter] at h2
          obtain ⟨q, ⟨hqm, -⟩, rfl⟩ := h2
          exact List.mem_map.mpr ⟨q, hqm, rfl⟩

theorem driftHealGo_heals (emuPath : String) (queued onDisk : String → Bool) :
    ∀ (l : List (String × FileEntry)) (st : DriftState) (k : String),
      (l.map Prod.fst).Nodup → k ∈ l.map Prod.fst → queued k = false →
      k ∈ st.localFiles.map Prod.fst → onDisk (joinPath emuPath k) = false →
      k ∈ (driftHealGo emuPath queued onDisk l st).added
      ∧ k ∉ (driftHealGo emuPath queued onDisk l st).localFiles.map Prod.fst := by
  intro l
  induction l with
  | nil =>
    intro st k _ hk
    cases hk
  | cons p rest ih =>
    intro st k hnd hk hq hloc hdisk
    rw [driftHealGo]
    by_cases hpk : p.1 = k
    · subst hpk
      have hsome : (lookupKey p.1 st.localFiles).isNone = false := by
        have := (lookupKey_isSome_iff p.1 st.localFiles).mpr hloc
        revert this
        cases lookupKey p.1 st.localFiles <;> simp
      rw [if_neg (by simp [hq]), if_neg (by simp [hsome]), if_neg (by simp [hdisk])]
      constructor
      · obtain ⟨extra, heq, -⟩ := driftHealGo_added_suffix emuPath queued onDisk rest
          ⟨st.added ++ [p.1], removeKey st.localFiles p.1⟩
        rw [heq]
        simp
      · intro hmem
        exact not_mem_keys_removeKey st.localFiles p.1
          (driftHealGo_localFiles_sub emuPath queued onDisk p.1 rest _ hmem)
    · have hk2 : k ∈ rest.map Prod.fst := by
        simp only [List.map_cons, List.mem_cons] at hk
        rcases hk with h | h
        · exact absurd h.symm hpk
        · exact h
      have hnd2 : (rest.map Prod.fst).Nodup := by
        simp only [List.map_cons, List.nodup_cons] at hnd
        exact hnd.2
      by_cases hqp : queued p.1 = true
      · rw [if_pos hqp]
        exact ih st k hnd2 hk2 hq hloc hdisk
      · rw [if_neg (by simp [bool_not_true_eq_false hqp])]
        by_cases hn : (lookupKey p.1 st.localFiles).isNone = true
        · rw [if_pos hn]
          exact ih st k hnd2 hk2 hq hloc hdisk
        · rw [if_neg (by simp [bool_not_true_eq_false hn])]
          by_cases hd : onDisk (joinPath emuPath p.1) = true
          · rw [if_pos hd]
            exact ih st k hnd2 hk2 hq hloc hdisk
          · rw [if_neg (by simp [bool_not_true_eq_false hd])]
            refine ih _ k hnd2 hk2 hq ?_ hdisk
            exact mem_keys_removeKey_of_ne (Ne.symm hpk) hloc

/-- C5: the drift-healing pass.  Every selected remote key that is in the
local manifest, not already queued by the diff as added or modified, and whose
expected local file is missing from disk, ends up queued in `added` with its
stale local-manifest entry dropped; and for any key the diff already
scheduled, the pass adds no duplicate — its multiplicity in the final `added`
queue equals its multiplicity in `diff.Added`. -/
theorem driftHeal_spec (fr loc : Manifest) (diff : DiffResult) (emuPath : String)
    (onDisk : String → Bool) (hfr : fr.WF) :
    (∀ k, k ∈ fr.keys → driftQueued diff k = false → k ∈ loc.keys →
        onDisk (joinPath emuPath k) = false →
        k ∈ (driftHeal fr loc diff emuPath onDisk).added
        ∧ k ∉ (driftHeal fr loc diff emuPath onDisk).localFiles.map Prod.fst)
    ∧ (∀ k, driftQueued diff k = true →
        (driftHeal fr loc diff emuPath onDisk).added.count k = diff.added.count k) := by
  constructor
  · intro k h1 h2 h3 h4
    exact driftHealGo_heals emuPath (driftQueued diff) onDisk fr.files
      ⟨diff.added, loc.files⟩ k hfr h1 h2 h3 h4
  · intro k hq
    obtain ⟨extra, heq, hall⟩ := driftHealGo_added_suffix emuPath (driftQueued diff)
      onDisk fr.files ⟨diff.added, loc.files⟩
    unfold driftHeal
    rw [heq, List.count_append]
    have hz : extra.count k = 0 := by
      rw [List.count_eq_zero]
      intro hmem
      have := hall k hmem
      rw [hq] at this
      cases this
    rw [hz]
    simp

theorem driftHeal_spec_witness :
    (frEx.WF ∧ "y" ∈ frEx.keys ∧ driftQueued diffEx "y" = false ∧ "y" ∈ locEx.keys
      ∧ offDisk (joinPath "/emu" "y") = false)
    ∧ ("y" ∈ (driftHeal frEx locEx diffEx "/emu" offDisk).added
      ∧ "y" ∉ (driftHeal frEx locEx diffEx "/emu" offDisk).localFiles.map Prod.fst) :=
  ⟨⟨by decide, by decide, by decide, by decide, rfl⟩,
   (driftHeal_spec frEx locEx diffEx "/emu" offDisk (by decide)).1 "y"
     (by decide) (by decide) (by decide) rfl⟩

end EmuSync

namespace EmuSync

/-! ## C8: sequential vs. parallel transfer phase -/

theorem lookupKey_setKey (l : List (String × FileEntry)) (k : String) (v : FileEntry)
    (x : String) :
    lookupKey x (setKey l k v) = if x = k then some v else lookupKey x l := by
  induction l with
  | nil =>
    by_cases h : x = k
    · simp [setKey, lookupKey, h]
    · have hkx : ¬k = x := fun hh => h hh.symm
      simp [setKey, lookupKey, h, hkx]
  | cons p rest ih =>
    by_cases hpk : p.1 = k
    · by_cases hxk : x = k
      · simp [setKey, hpk, lookupKey, hxk]
      · have hkx : ¬k = x := fun hh => hxk hh.symm
        have hpx : ¬p.1 = x := by rw [hpk]; exact hkx
        simp [setKey, hpk, lookupKey, hxk, hkx, hpx]
    · by_cases hpx : p.1 = x
      · have hxk : ¬x = k := by rw [← hpx]; exact hpk
        simp [setKey, hpk, lookupKey, hpx, hxk]
      · simp [setKey, hpk, lookupKey, hpx, ih]

theorem applyDownloadResult_lookup (entries : String → FileEntry)
    (dlErr : String → Option Nat) (st : XferState) (y x : String) :
    lookupKey x (applyDownloadResult entries st y (dlErr y)).localFiles =
      if x = y ∧ (dlErr y).isNone = true then some (entries y)
      else lookupKey x st.localFiles := by
  cases hd : dlErr y with
  | some e => simp [applyDownloadResult, hd]
  | none =>
    simp only [applyDownloadResult, lookupKey_setKey, hd, Option.isNone_none, and_true]

theorem downloadRun_downloaded (entries : String → FileEntry)
    (dlErr : String → Option Nat) :
    ∀ (l : List String) (st0 : XferState),
      ((l.foldl (fun st k => applyDownloadResult entries st k (dlErr k)) st0)).downloaded =
        st0.downloaded ++ l.filter (fun k => (dlErr k).isNone) := by
  intro l
  induction l with
  | nil => intro st0; simp
  | cons x rest ih =>
    intro st0
    rw [List.foldl_cons, ih]
    cases hd : dlErr x with
    | none => simp [applyDownloadResult, hd]
    | some e => simp [applyDownloadResult, hd]

theorem downloadRun_errKeys (entries : String → FileEntry)
    (dlErr : String → Option Nat) :
    ∀ (l : List String) (st0 : XferState),
      ((l.foldl (fun st k => applyDownloadResult entries st k (dlErr k)) st0)).errKeys =
        st0.errKeys ++ l.filter (fun k => (dlErr k).isSome) := by
  intro l
  induction l with
  | nil => intro st0; simp
  | cons x rest ih =>
    intro st0
    rw [List.foldl_cons, ih]
    cases hd : dlErr x with
    | none => simp [applyDownloadResult, hd]
    | some e => simp [applyDownloadResult, hd]

theorem downloadRun_lookup (entries : String → FileEntry)
    (dlErr : String → Option Nat) :
    ∀ (l : List String) (st0 : XferState) (x : String),
      lookupKey x
          ((l.foldl (fun st k => applyDownloadResult entries st k (dlErr k)) st0)).localFiles =
        if (dlErr x).isNone = true ∧ x ∈ l then some (entries x)
        else lookupKey x st0.localFiles := by
  intro l
  induction l with
  | nil => intro st0 x; simp
  | cons y rest ih =>
    intro st0 x
    rw [List.foldl_cons, ih, applyDownloadResult_lookup]
    by_cases hxy : x = y
    · subst hxy
      by_cases hn : (dlErr x).isNone = true
      · by_cases hmem : x ∈ rest <;> simp [hn, hmem]
      · simp [hn]
    · by_cases hn : (dlErr x).isNone = true
      · by_cases hmem : x ∈ rest <;> simp [hn, hmem, hxy]
      · simp [hn, hxy]

theorem uploadRun_uploaded (upErr : String → Option Nat) :
    ∀ (l : List String) (ust0 : UploadXferState),
      ((l.foldl (fun st k => applyUploadResult st k (upErr k)) ust0)).uploaded =
        ust0.uploaded ++ l.filter (fun k => (upErr k).isNone) := by
  intro l
  induction l with
  | nil => intro ust0; simp
  | cons x rest ih =>
    intro ust0
    rw [List.foldl_cons, ih]
    cases hd : upErr x with
    | none => simp [applyUploadResult, hd]
    | some e => simp [applyUploadResult, hd]

theorem uploadRun_errKeys (upErr : String → Option Nat) :
    ∀ (l : List String) (ust0 : UploadXferState),
      ((l.foldl (fun st k => applyUploadResult st k (upErr k)) ust0)).errKeys =
        ust0.errKeys ++ l.filter (fun k => (upErr k).isSome) := by
  intro l
  induction l with
  | nil => intro ust0; simp
  | cons x rest ih =>
    intro ust0
    rw [List.foldl_cons, ih]
    cases hd : upErr x with
    | none => simp [applyUploadResult, hd]
    | some e => simp [applyUploadResult, hd]

/-- C8: with the same queue of keys, the same deterministic per-key backend
outcomes, and the same entry map, the parallel transfer path — whose results
arrive in an arbitrary order, i.e. any permutation of the queue — produces
the same observables as the strictly sequential path: the same multiset of
succeeded keys, the same multiset of failed keys, and for downloads the very
same resulting local-manifest map.  This covers both the download phase
(`downloadSequential`/`downloadParallel`, which also commits manifest
entries) and the upload phase (`uploadSequential`/`uploadParallel`). -/
theorem transfer_parallel_equiv_sequential (entries : String → FileEntry)
    (dlErr upErr : String → Option Nat) (keys arrivals upKeys upArrivals : List String)
    (st0 : XferState) (ust0 : UploadXferState)
    (hperm : arrivals.Perm keys) (huperm : upArrivals.Perm upKeys) :
    ((downloadParallelM entries dlErr arrivals st0).downloaded).Perm
        ((downloadSequentialM entries dlErr keys st0).downloaded)
    ∧ ((downloadParallelM entries dlErr arrivals st0).errKeys).Perm
        ((downloadSequentialM entries dlErr keys st0).errKeys)
    ∧ (∀ x, lookupKey x (downloadParallelM entries dlErr arrivals st0).localFiles =
        lookupKey x (downloadSequentialM entries dlErr keys st0).localFiles)
    ∧ ((uploadParallelM upErr upArrivals ust0).uploaded).Perm
        ((uploadSequentialM upErr upKeys ust0).uploaded)
    ∧ ((uploadParallelM upErr upArrivals ust0).errKeys).Perm
        ((uploadSequentialM upErr upKeys ust0).errKeys) := by
  refine ⟨?_, ?_, ?_, ?_, ?_⟩
  · unfold downloadParallelM downloadSequentialM
    rw [downloadRun_downloaded, downloadRun_downloaded]
    exact List.Perm.append_left _ (hperm.filter _)
  · unfold downloadParallelM downloadSequentialM
    rw [downloadRun_errKeys, downloadRun_errKeys]
    exact List.Perm.append_left _ (hperm.filter _)
  · intro x
    unfold downloadParallelM downloadSequentialM
    rw [downloadRun_lookup, downloadRun_lookup]
    by_cases hc : (dlErr x).isNone = true ∧ x ∈ arrivals
    · rw [if_pos hc, if_pos ⟨hc.1, hperm.mem_iff.mp hc.2⟩]
    · rw [if_neg hc, if_neg (fun hc2 => hc ⟨hc2.1, hperm.mem_iff.mpr hc2.2⟩)]
  · unfold uploadParallelM uploadSequentialM
    rw [uploadRun_uploaded, uploadRun_uploaded]
    exact List.Perm.append_left _ (huperm.filter _)
  · unfold uploadParallelM uploadSequentialM
    rw [uploadRun_errKeys, uploadRun_errKeys]
    exact List.Perm.append_left _ (huperm.filter _)

theorem transfer_parallel_equiv_sequential_witness :
    ((["b", "a"] : List String).Perm ["a", "b"]
      ∧ (["u1"] : List String).Perm ["u1"])
    ∧ ((downloadParallelM entriesEx dlErrEx ["b", "a"] xferEmpty).downloaded).Perm
        ((downloadSequentialM entriesEx dlErrEx ["a", "b"] xferEmpty).downloaded) :=
  ⟨⟨by decide, by decide⟩,
   (transfer_parallel_equiv_sequential entriesEx dlErrEx dlErrEx ["a", "b"] ["b", "a"]
     ["u1"] ["u1"] xferEmpty upXferEmpty (by decide) (by decide)).1⟩

end EmuSync

namespace EmuSync

/-! ## C7: the Verify engine -/

theorem pair_eq_of_mem_nodup {l : List (String × FileEntry)}
    (hnd : (l.map Prod.fst).Nodup) {k : String} {e e2 : FileEntry}
    (h1 : (k, e) ∈ l) (h2 : (k, e2) ∈ l) : e = e2 := by
  have ha := lookupKey_of_mem_nodup hnd h1
  have hb := lookupKey_of_mem_nodup hnd h2
  rw [ha] at hb
  exact Option.some.inj hb

theorem joinPath_right_inj {base r1 r2 : String}
    (h : joinPath base r1 = joinPath base r2) : r1 = r2 := by
  unfold joinPath at h
  have h1 := congrArg String.data h
  simp only [String.data_append] at h1
  exact String.ext (List.append_cancel_left h1)

theorem mem_filterMapFst {P : String × FileEntry → Bool} {l : List (String × FileEntry)}
    {k : String} {e : FileEntry} (hm : (k, e) ∈ l) (hP : P (k, e) = true) :
    k ∈ (l.filter P).map Prod.fst :=
  List.mem_map.mpr ⟨(k, e), List.mem_filter.mpr ⟨hm, hP⟩, rfl⟩

theorem not_mem_filterMapFst {P : String × FileEntry → Bool}
    {l : List (String × FileEntry)} (hnd : (l.map Prod.fst).Nodup)
    {k : String} {e : FileEntry} (hm : (k, e) ∈ l) (hP : P (k, e) = false) :
    k ∉ (l.filter P).map Prod.fst := by
  intro hc
  obtain ⟨p, hpf, hpk⟩ := List.mem_map.mp hc
  obtain ⟨k2, e2⟩ := p
  obtain ⟨hpl, hPp⟩ := List.mem_filter.mp hpf
  cases hpk
  have he : e2 = e := pair_eq_of_mem_nodup hnd hpl hm
  subst he
  rw [hP] at hPp
  cases hPp

theorem mem_filterMapJoin {P : String × FileEntry → Bool} {l : List (String × FileEntry)}
    (emuPath : String) {k : String} {e : FileEntry}
    (hm : (k, e) ∈ l) (hP : P (k, e) = true) :
    joinPath emuPath k ∈ (l.filter P).map (fun p => joinPath emuPath p.1) :=
  List.mem_map.mpr ⟨(k, e), List.mem_filter.mpr ⟨hm, hP⟩, rfl⟩

theorem not_mem_filterMapJoin {P : String × FileEntry → Bool}
    {l : List (String × FileEntry)} (hnd : (l.map Prod.fst).Nodup)
    (emuPath : String) {k : String} {e : FileEntry}
    (hm : (k, e) ∈ l) (hP : P (k, e) = false) :
    joinPath emuPath k ∉ (l.filter P).map (fun p => joinPath emuPath p.1) := by
  intro hc
  obtain ⟨p, hpf, hpk⟩ := List.mem_map.mp hc
  obtain ⟨k2, e2⟩ := p
  obtain ⟨hpl, hPp⟩ := List.mem_filter.mp hpf
  have hk : k2 = k := joinPath_right_inj hpk
  subst hk
  have he : e2 = e := pair_eq_of_mem_nodup hnd hpl hm
  subst he
  rw [hP] at hPp
  cases hPp

theorem verifyGo_eq (disk : String → Option (Int × String)) (md5 : String → String)
    (emuPath : String) :
    ∀ (l : List (String × FileEntry)) (acc : VerifyAcc),
      verifyGo disk md5 emuPath l acc =
        ⟨acc.okFiles ++ (l.filter (fun p =>
            match disk (joinPath emuPath p.1) with
            | none => false
            | some (sz, c) => decide (sz = p.2.size ∧ md5 c = p.2.md5))).map Prod.fst,
         acc.mismatch ++ (l.filter (fun p =>
            match disk (joinPath emuPath p.1) with
            | none => false
            | some (sz, c) => decide (sz ≠ p.2.size ∨ md5 c ≠ p.2.md5))).map Prod.fst,
         acc.missing ++ (l.filter (fun p =>
            (disk (joinPath emuPath p.1)).isNone)).map Prod.fst,
         acc.toRemove ++ (l.filter (fun p =>
            match disk (joinPath emuPath p.1) with
            | none => true
            | some (sz, c) => decide (sz ≠ p.2.size ∨ md5 c ≠ p.2.md5))).map Prod.fst,
         acc.hashed ++ (l.filter (fun p =>
            match disk (joinPath emuPath p.1) with
            | none => false
            | some (sz, _c) => decide (sz = p.2.size))).map
              (fun p => joinPath emuPath p.1)⟩ := by
  intro l
  induction l with
  | nil =>
    intro acc
    cases acc
    simp [verifyGo]
  | cons p rest ih =>
    intro acc
    obtain ⟨key, entry⟩ := p
    cases hd : disk (joinPath emuPath key) with
    | none =>
      simp only [verifyGo, hd]
      rw [ih]
      simp [List.filter_cons, hd, List.append_assoc]
    | some v =>
      obtain ⟨sz, c⟩ := v
      by_cases hsz : sz = entry.size
      · by_cases hmd : md5 c = entry.md5
        · simp only [verifyGo, hd]
          rw [if_neg (by simp [hsz]), if_neg (by simp [hmd]), ih]
          simp [List.filter_cons, hd, hsz, hmd, List.append_assoc]
        · simp only [verifyGo, hd]
          rw [if_neg (by simp [hsz]), if_pos (by simp [hmd]), ih]
          simp [List.filter_cons, hd, hsz, hmd, List.append_assoc]
      · simp only [verifyGo, hd]
        rw [if_pos (by simp [hsz]), ih]
        simp [List.filter_cons, hd, hsz, List.append_assoc]

end EmuSync

namespace EmuSync

theorem contains_eq_true_of_mem {l : List String} {a : String} (h : a ∈ l) :
    l.contains a = true :=
  List.elem_iff.mpr h

theorem contains_eq_false_of_not_mem {l : List String} {a : String} (h : a ∉ l) :
    l.contains a = false := by
  cases hc : l.contains a
  · rfl
  · exact absurd (List.elem_iff.mp hc) h

/-- C7: every local-manifest entry is classified by `Verify` as exactly one of
missing (file absent from disk; entry dropped from the persisted manifest),
mismatch (the on-disk size differs from the recorded size — and then the file
is never hashed — or the size matches but the recomputed hash differs; entry
dropped), or ok (entry retained in the persisted manifest).  Transient
stat/hash I/O errors are environmental and outside this filesystem model
(`disk` is total). -/
theorem verify_classifies (disk : String → Option (Int × String))
    (md5 : String → String) (emuPath : String) (loc : Manifest) (hnd : loc.WF)
    (k : String) (e : FileEntry) (hm : (k, e) ∈ loc.files) :
    (disk (joinPath emuPath k) = none →
        k ∈ (Verify disk md5 emuPath loc).1.missing
        ∧ k ∉ (Verify disk md5 emuPath loc).1.mismatch
        ∧ k ∉ (Verify disk md5 emuPath loc).1.okFiles
        ∧ k ∉ (Verify disk md5 emuPath loc).2.keys
        ∧ joinPath emuPath k ∉ (Verify disk md5 emuPath loc).1.hashed)
    ∧ (∀ sz c, disk (joinPath emuPath k) = some (sz, c) → sz ≠ e.size →
        k ∈ (Verify disk md5 emuPath loc).1.mismatch
        ∧ k ∉ (Verify disk md5 emuPath loc).1.missing
        ∧ k ∉ (Verify disk md5 emuPath loc).1.okFiles
        ∧ k ∉ (Verify disk md5 emuPath loc).2.keys
        ∧ joinPath emuPath k ∉ (Verify disk md5 emuPath loc).1.hashed)
    ∧ (∀ sz c, disk (joinPath emuPath k) = some (sz, c) → sz = e.size →
        md5 c ≠ e.md5 →
        k ∈ (Verify disk md5 emuPath loc).1.mismatch
        ∧ k ∉ (Verify disk md5 emuPath loc).1.missing
        ∧ k ∉ (Verify disk md5 emuPath loc).1.okFiles
        ∧ k ∉ (Verify disk md5 emuPath loc).2.keys
        ∧ joinPath emuPath k ∈ (Verify disk md5 emuPath loc).1.hashed)
    ∧ (∀ sz c, disk (joinPath emuPath k) = some (sz, c) → sz = e.size →
        md5 c = e.md5 →
        k ∈ (Verify disk md5 emuPath loc).1.okFiles
        ∧ k ∉ (Verify disk md5 emuPath loc).1.missing
        ∧ k ∉ (Verify disk md5 emuPath loc).1.mismatch
        ∧ (k, e) ∈ (Verify disk md5 emuPath loc).2.files
        ∧ joinPath emuPath k ∈ (Verify disk md5 emuPath loc).1.hashed) := by
  simp only [Verify, verifyGo_eq, List.nil_append, Manifest.keys]
  refine ⟨?_, ?_, ?_, ?_⟩
  · intro hdk
    refine ⟨mem_filterMapFst hm (by simp [hdk]),
            not_mem_filterMapFst hnd hm (by simp [hdk]),
            not_mem_filterMapFst hnd hm (by simp [hdk]), ?_,
            not_mem_filterMapJoin hnd emuPath hm (by simp [hdk])⟩
    refine not_mem_filterMapFst hnd hm ?_
    have hin : k ∈ (loc.files.filter (fun p =>
        match disk (joinPath emuPath p.1) with
        | none => true
        | some (sz, c) => decide (sz ≠ p.2.size ∨ md5 c ≠ p.2.md5))).map Prod.fst :=
      mem_filterMapFst hm (by simp [hdk])
    simp only [contains_eq_true_of_mem hin, Bool.not_true]
  · intro sz c hdk hsz
    refine ⟨mem_filterMapFst hm (by simp [hdk, hsz]),
            not_mem_filterMapFst hnd hm (by simp [hdk]),
            not_mem_filterMapFst hnd hm (by simp [hdk, hsz]), ?_,
            not_mem_filterMapJoin hnd emuPath hm (by simp [hdk, hsz])⟩
    refine not_mem_filterMapFst hnd hm ?_
    have hin : k ∈ (loc.files.filter (fun p =>
        match disk (joinPath emuPath p.1) with
        | none => true
        | some (sz, c) => decide (sz ≠ p.2.size ∨ md5 c ≠ p.2.md5))).map Prod.fst :=
      mem_filterMapFst hm (by simp [hdk, hsz])
    simp only [contains_eq_true_of_mem hin, Bool.not_true]
  · intro sz c hdk hsz hmd
    refine ⟨mem_filterMapFst hm (by simp [hdk, hmd]),
            not_mem_filterMapFst hnd hm (by simp [hdk]),
            not_mem_filterMapFst hnd hm (by simp [hdk, hmd]), ?_,
            mem_filterMapJoin emuPath hm (by simp [hdk, hsz])⟩
    refine not_mem_filterMapFst hnd hm ?_
    have hin : k ∈ (loc.files.filter (fun p =>
        match disk (joinPath emuPath p.1) with
        | none => true
        | some (sz, c) => decide (sz ≠ p.2.size ∨ md5 c ≠ p.2.md5))).map Prod.fst :=
      mem_filterMapFst hm (by simp [hdk, hmd])
    simp only [contains_eq_true_of_mem hin, Bool.not_true]
  · intro sz c hdk hsz hmd
    refine ⟨mem_filterMapFst hm (by simp [hdk, hsz, hmd]),
            not_mem_filterMapFst hnd hm (by simp [hdk]),
            not_mem_filterMapFst hnd hm (by simp [hdk, hsz, hmd]), ?_,
            mem_filterMapJoin emuPath hm (by simp [hdk, hsz])⟩
    refine List.mem_filter.mpr ⟨hm, ?_⟩
    have hout : k ∉ (loc.files.filter (fun p =>
        match disk (joinPath emuPath p.1) with
        | none => true
        | some (sz, c) => decide (sz ≠ p.2.size ∨ md5 c ≠ p.2.md5))).map Prod.fst :=
      not_mem_filterMapFst hnd hm (by simp [hdk, hsz, hmd])
    simp only [contains_eq_false_of_not_mem hout, Bool.not_false]

theorem verify_classifies_witness :
    (mB.WF ∧ ("y", entYv2) ∈ mB.files ∧ diskEx (joinPath "/emu" "y") = some (9, "cy")
      ∧ (9 : Int) ≠ entYv2.size)
    ∧ ("y" ∈ (Verify diskEx md5Ex "/emu" mB).1.mismatch
      ∧ "y" ∉ (Verify diskEx md5Ex "/emu" mB).1.missing
      ∧ "y" ∉ (Verify diskEx md5Ex "/emu" mB).1.okFiles
      ∧ "y" ∉ (Verify diskEx md5Ex "/emu" mB).2.keys
      ∧ joinPath "/emu" "y" ∉ (Verify diskEx md5Ex "/emu" mB).1.hashed) :=
  ⟨⟨by decide, by decide, rfl, by decide⟩,
   (verify_classifies diskEx md5Ex "/emu" mB (by decide) "y" entYv2
       (by decide)).2.1 9 "cy" rfl (by decide)⟩

end EmuSync

namespace EmuSync

/-! ## C4: where upload.Run saves the hash cache -/

/-- C4 (the code as written): in a non-dry-run, non-manifest-only upload run
with one file to transfer, `upload.Run` attempts the file transfer first and
calls `saveCache` only afterwards, immediately before publishing the manifest
— the cache save is the second event, after the `UploadFile` attempt, not
before it as the specification requires. -/
theorem uploadRun_cache_saved_after_transfer :
    uploadRunEvents false false ["roms/snes/Game1.sfc"] [] =
      [UpEvent.uploadFile "roms/snes/Game1.sfc", UpEvent.saveCache,
       UpEvent.uploadManifest]
    ∧ (uploadRunEvents false false ["roms/snes/Game1.sfc"] []).head? ≠
        some UpEvent.saveCache := by
  constructor
  · rfl
  · intro h
    cases h

end EmuSync
